import Mathlib

/-!
Verification of the sync/dedup/retention engine of `notion_news.py`.

The Python source is shallowly embedded below.  Strings are `List Char`
(`Str`); Python's `str.lower` is modelled by ASCII case folding; Python's
substring operator `needle in text` is `containsSub`.  The Notion store is a
list of records with an `archived` flag; network reads are modelled by the
data they return and network failures by `Except`/boolean parameters.
-/

namespace NotionNews

abbrev Str := List Char

/-- ASCII case folding, modelling Python `str.lower()` on the ASCII range. -/
def asciiLower (c : Char) : Char :=
  if 'A' ≤ c ∧ c ≤ 'Z' then Char.ofNat (c.toNat + 32) else c

/-- Python `s.lower()` applied to a whole string. -/
def lower (s : Str) : Str := s.map asciiLower

/-- Does `hay` start with `needle`? (helper for the substring test) -/
def startsWith : Str → Str → Bool
  | _, [] => true
  | [], _ :: _ => false
  | c :: cs, d :: ds => c == d && startsWith cs ds

/-- Python's `needle in hay` on strings: contiguous substring occurrence. -/
def containsSub : Str → Str → Bool
  | [], needle => needle.isEmpty
  | c :: t, needle => startsWith (c :: t) needle || containsSub t needle

/-- The `keywords` section of the configuration (`config['keywords']`). -/
structure Keywords where
  high_priority : List Str
  medium_priority : List Str
  low_priority : List Str

/-- The configuration surface used by the engine (`config`), with the
defaults already applied by `config.get(..., default)`. -/
structure Config where
  keywords : Keywords
  min_relevance : Nat
  max_articles : Nat

/-- The fallback configuration built when `config.yaml` is missing
(source lines 23–32). -/
def default_config : Config :=
  { keywords :=
      { high_priority := ["gravitational waves".toList, "black hole".toList]
        medium_priority := ["cosmology".toList, "dark matter".toList]
        low_priority := [] }
    min_relevance := 1
    max_articles := 10 }

/-- One tier loop of `calculate_relevance`: for each keyword of the tier
whose lowercase form occurs in `text`, raise the running score to at least
`tierScore` and append the keyword to the matched list. -/
def scanTier (text : Str) (kws : List Str) (tierScore : Nat)
    (acc : Nat × List Str) : Nat × List Str :=
  kws.foldl
    (fun st kw =>
      if containsSub text (lower kw) then (max st.1 tierScore, st.2 ++ [kw])
      else st)
    acc

/-- Model of `calculate_relevance(title, abstract)` (source lines 85–114): scans the
high tier with score 5, the medium tier with 3, the low tier with 1
(the source writes `max(score, 1)` for the low tier), and returns the score,
replaced by 1 when it is still 0, together with the matched keywords. -/
def calculate_relevance (cfg : Keywords) (title abstract : Str) :
    Nat × List Str :=
  let text := lower (title ++ ' ' :: abstract)
  let st1 := scanTier text cfg.high_priority 5 (0, [])
  let st2 := scanTier text cfg.medium_priority 3 st1
  let st3 := scanTier text cfg.low_priority 1 st2
  (if st3.1 > 0 then st3.1 else 1, st3.2)

/-- Does some keyword of `kws` match `text`? -/
def tierHit (text : Str) (kws : List Str) : Bool :=
  kws.any (fun k => containsSub text (lower k))

/-- An article as assembled by `fetch_arxiv_articles` (only the fields the
engine's logic reads are modelled; display-only fields are omitted). -/
structure Article where
  title : Str
  link : Str
  published : Int
  abstractText : Str
  category : Str
  relevance : Nat
  keywordsMatched : List Str
deriving DecidableEq

/-- One parsed feed entry as seen after XML parsing: each field is `none`
when the corresponding element is missing from the entry. -/
structure RawEntry where
  title_elem : Option Str
  link_elem : Option Str
  published_elem : Option Int
  summary_elem : Option Str
deriving DecidableEq

/-- Is `c` ASCII whitespace (the characters Python's `str.split()` splits on
that occur in the feeds)? -/
def isSpace (c : Char) : Bool :=
  c == ' ' || c == '\t' || c == '\n' || c == '\r'

/-- Python `' '.join(s.split())`: collapse whitespace runs to single
spaces and strip the ends. -/
def normWS (s : Str) : Str :=
  List.intercalate [' ']
    ((s.splitOnP (fun c => isSpace c)).filter (fun w => !w.isEmpty))

/-- The per-entry body of `fetch_arxiv_articles`'s loop (source lines
186–234): skip the entry when a field is missing, when it is older than the
cutoff, or when its relevance is below `min_relevance`; otherwise build the
article record. -/
def processEntry (cfg : Config) (cutoff : Int) (category : Str)
    (e : RawEntry) : Option Article :=
  match e.title_elem, e.link_elem, e.published_elem, e.summary_elem with
  | some t, some l, some p, some s =>
    let title := normWS t
    let abstract := normWS s
    if p < cutoff then none
    else
      let sc := calculate_relevance cfg.keywords title abstract
      if sc.1 < cfg.min_relevance then none
      else
        some { title := title, link := l, published := p,
               abstractText := abstract.take 2000, category := category,
               relevance := sc.1, keywordsMatched := sc.2 }
  | _, _, _, _ => none

/-- The sort key order used by `all_entries.sort(key=..., reverse=True)`:
`a` may come after `b` in the reversed order when
`(a.relevance, a.published) ≤ (b.relevance, b.published)` lexicographically. -/
def keyLeB (a b : Article) : Bool :=
  decide (a.relevance < b.relevance ∨
    (a.relevance = b.relevance ∧ a.published ≤ b.published))

/-- Insert an article into a descending-sorted list, before the first
element whose key is not larger — the stable descending sort Python's
`list.sort(reverse=True)` performs, element by element. -/
def insertDesc (x : Article) : List Article → List Article
  | [] => [x]
  | y :: ys => if keyLeB y x then x :: y :: ys else y :: insertDesc x ys

/-- Stable sort descending by `(relevance, published)`. -/
def sortDesc : List Article → List Article
  | [] => []
  | x :: xs => insertDesc x (sortDesc xs)

/-- Model of `fetch_arxiv_articles` (source lines 151–250), with the network
abstracted away: `feeds` pairs each queried category with the entries its
page of results parsed to, and `cutoff` stands for `now - 7 days`.  Entries
are filtered and scored per category, concatenated in category order and
sorted by `(relevance, published)` descending. -/
def fetch_arxiv_articles (cfg : Config) (cutoff : Int)
    (feeds : List (Str × List RawEntry)) : List Article :=
  let all_entries :=
    (feeds.map (fun f => f.2.filterMap (processEntry cfg cutoff f.1))).flatten
  sortDesc all_entries

/-- A record of the destination (Notion) store.  `titleProp` is the
rich-text array of the `Title` property; the loader reads its first text.
`archived = true` is the store's soft-deleted state. -/
structure NRec where
  id : Nat
  titleProp : List Str
  date : Int
  archived : Bool
deriving DecidableEq

/-- One page of a paginated store query. -/
structure NPage where
  results : List NRec
  has_more : Bool
deriving DecidableEq

/-- The titles a page contributes: the first text of each record's `Title`
property, records with an empty title array skipped (source lines 267–270). -/
def pageTitles (p : NPage) : List Str :=
  p.results.filterMap (fun r => r.titleProp.head?)

/-- Model of `fetch_existing_titles` (source lines 252–279) over the sequence of
page results the store's cursor chain yields; `Except.error` is a query
call that raises.  The `while has_more` loop collects each page's titles
and continues only while the page reports more; the surrounding
`try/except` turns an error into returning the titles collected so far. -/
def fetch_existing_titles : List (Except Unit NPage) → List Str
  | [] => []
  | Except.error _ :: _ => []
  | Except.ok p :: rest =>
    pageTitles p ++ (if p.has_more then fetch_existing_titles rest else [])

/-- The reconcile loop of `main` (source lines 404–410) restricted to which
inserts are attempted: iterate the considered candidates in order and
attempt an insert exactly for those whose title is not in `existing`
(`existing` is never updated inside the loop). -/
def syncLoop (existing : List Str) : List Article → List Article
  | [] => []
  | a :: rest =>
    if a.title ∈ existing then syncLoop existing rest
    else a :: syncLoop existing rest

/-- The composition in `main` of the existing-set load with the reconcile loop:
`existing = fetch_existing_titles(); for article in articles[:max]: ...`. -/
def mainAttempts (pages : List (Except Unit NPage)) (articles : List Article)
    (maxArticles : Nat) : List Article :=
  syncLoop (fetch_existing_titles pages) (articles.take maxArticles)

/-- Keep the attempted inserts whose `add_entry` call succeeded; `ok i`
tells whether the i-th insert call of the run succeeds (modelling per-call
network failure, which `add_entry` catches and reports as `False`). -/
def pickOk (ok : Nat → Bool) : Nat → List Article → List Article
  | _, [] => []
  | i, a :: rest =>
    if ok i then a :: pickOk ok (i + 1) rest else pickOk ok (i + 1) rest

/-- The store record `add_entry` creates for an article (source lines
284–293): a live record whose `Title` property holds the article title. -/
def add_entry_rec (rid : Nat) (a : Article) : NRec :=
  { id := rid, titleProp := [a.title], date := a.published, archived := false }

/-- Records created for the successfully inserted articles, with ids
`base, base+1, ...` (the store assigns each created page a fresh id). -/
def mkRecs (base : Nat) : List Article → List NRec
  | [] => []
  | a :: rest => add_entry_rec base a :: mkRecs (base + 1) rest

/-- An id strictly larger than every id in the store, used for the ids of
newly created records. -/
def freshBase (store : List NRec) : Nat :=
  (store.map (fun r => r.id)).foldr max 0 + 1

/-- The live (non-archived) records of the store, in store order. -/
def liveRecs (store : List NRec) : List NRec :=
  store.filter (fun r => !r.archived)

/-- The titles of the live records (what a complete existing-set load
returns). -/
def liveTitles (store : List NRec) : List Str :=
  (liveRecs store).filterMap (fun r => r.titleProp.head?)

/-- Pair each record with its position, starting at `n`. -/
def withIdx : List NRec → Nat → List (NRec × Nat)
  | [], _ => []
  | r :: rs, n => (r, n) :: withIdx rs (n + 1)

/-- Lexicographic `(date, position)` order on position-annotated records. -/
def lexLeB (a b : NRec × Nat) : Bool :=
  decide (a.1.date < b.1.date ∨ (a.1.date = b.1.date ∧ a.2 ≤ b.2))

/-- Insertion into a `lexLeB`-sorted list. -/
def insLex (x : NRec × Nat) : List (NRec × Nat) → List (NRec × Nat)
  | [] => [x]
  | y :: ys => if lexLeB x y then x :: y :: ys else y :: insLex x ys

/-- Sort position-annotated records by `(date, position)` ascending. -/
def sortLex : List (NRec × Nat) → List (NRec × Nat)
  | [] => []
  | x :: xs => insLex x (sortLex xs)

/-- The store's answer to `databases.query(sorts=[Date ascending],
page_size=100)`: the live records sorted ascending by date — ties keeping
store order, modelled by sorting position-annotated records — truncated to
the first page of 100. -/
def queryByDateAsc (store : List NRec) : List NRec :=
  ((sortLex (withIdx (liveRecs store) 0)).map Prod.fst).take 100

/-- Archival call `pages.update(page_id=..., archived=True)`: mark the record with this
id archived. -/
def archiveOne (pid : Nat) (store : List NRec) : List NRec :=
  store.map (fun r => if r.id == pid then { r with archived := true } else r)

/-- Model of `trim_database(max_articles)` (source lines 344–365): fetch one sorted
page of live records, archive the first `len(pages) - max_articles` of them
(none when that is not positive), oldest first.  Returns the archived
records in archive order together with the resulting store. -/
def trim_database (max_articles : Nat) (store : List NRec) :
    List NRec × List NRec :=
  let pages := queryByDateAsc store
  let to_archive := pages.length - max_articles
  let victims := pages.take to_archive
  (victims, victims.foldl (fun s p => archiveOne p.id s) store)

/-- One complete run of `main` after the fetch (source lines 393–421),
over an already-fetched ranked candidate list: when the fetch returned
nothing the run returns early; otherwise load the existing titles (the
complete live-title set — pagination is modelled by
`fetch_existing_titles` separately), run the reconcile loop over the first
`maxArticles` candidates, append a store record for each successful insert,
and trim.  `ok i` is whether the i-th insert call succeeds. -/
def runSync (maxArticles : Nat) (ok : Nat → Bool) (store : List NRec)
    (articles : List Article) : List NRec :=
  if articles.isEmpty then store
  else
    let existing := liveTitles store
    let attempted := syncLoop existing (articles.take maxArticles)
    let succeeded := pickOk ok 0 attempted
    let store1 := store ++ mkRecs (freshBase store) succeeded
    (trim_database maxArticles store1).2

theorem scanTier_fst (text : Str) (kws : List Str) (ts : Nat)
    (acc : Nat × List Str) :
    (scanTier text kws ts acc).1 =
      if tierHit text kws then max acc.1 ts else acc.1 := by
  induction kws generalizing acc with
  | nil => simp [scanTier, tierHit]
  | cons k rest ih =>
    by_cases hk : containsSub text (lower k) = true
    · have h1 : scanTier text (k :: rest) ts acc =
          scanTier text rest ts (max acc.1 ts, acc.2 ++ [k]) := by
        simp [scanTier, hk]
      rw [h1, ih]
      have : tierHit text (k :: rest) = true := by
        simp [tierHit, hk]
      rw [this]
      by_cases hr : tierHit text rest
      · simp [hr, max_assoc]
      · simp [hr]
    · have h1 : scanTier text (k :: rest) ts acc =
          scanTier text rest ts acc := by
        simp [scanTier, hk]
      rw [h1, ih]
      have : tierHit text (k :: rest) = tierHit text rest := by
        simp [tierHit, hk]
      rw [this]

theorem scanTier_snd_mem (text : Str) (kws : List Str) (ts : Nat)
    (acc : Nat × List Str) (k : Str) :
    k ∈ (scanTier text kws ts acc).2 ↔
      k ∈ acc.2 ∨ (k ∈ kws ∧ containsSub text (lower k) = true) := by
  induction kws generalizing acc with
  | nil => simp [scanTier]
  | cons k0 rest ih =>
    by_cases hk : containsSub text (lower k0) = true
    · have h1 : scanTier text (k0 :: rest) ts acc =
          scanTier text rest ts (max acc.1 ts, acc.2 ++ [k0]) := by
        simp [scanTier, hk]
      rw [h1, ih]
      simp only [List.mem_append, List.mem_cons]
      constructor
      · rintro ((h | (rfl | h)) | ⟨hm, hc⟩)
        · exact Or.inl h
        · exact Or.inr ⟨Or.inl rfl, hk⟩
        · exact absurd h (List.not_mem_nil _)
        · exact Or.inr ⟨Or.inr hm, hc⟩
      · rintro (h | ⟨(rfl | hm), hc⟩)
        · exact Or.inl (Or.inl h)
        · exact Or.inl (Or.inr (Or.inl rfl))
        · exact Or.inr ⟨hm, hc⟩
    · have h1 : scanTier text (k0 :: rest) ts acc =
          scanTier text rest ts acc := by
        simp [scanTier, hk]
      rw [h1, ih]
      constructor
      · rintro (h | ⟨hm, hc⟩)
        · exact Or.inl h
        · exact Or.inr ⟨List.mem_cons_of_mem _ hm, hc⟩
      · rintro (h | ⟨hm, hc⟩)
        · exact Or.inl h
        · rcases List.mem_cons.mp hm with rfl | hm
          · exact absurd hc hk
          · exact Or.inr ⟨hm, hc⟩

/-- The score of `calculate_relevance`, written as the nested conditional
the tier scans amount to.  Note the final branch: a low-tier match raises
the score only to `max 0 1 = 1`, which the final clamp also produces. -/
theorem calculate_relevance_fst (cfg : Keywords) (title abstract : Str) :
    (calculate_relevance cfg title abstract).1 =
      (let text := lower (title ++ ' ' :: abstract)
       if tierHit text cfg.high_priority then 5
       else if tierHit text cfg.medium_priority then 3
       else 1) := by
  unfold calculate_relevance
  simp only
  rw [scanTier_fst, scanTier_fst, scanTier_fst]
  by_cases h1 : tierHit (lower (title ++ ' ' :: abstract)) cfg.high_priority <;>
    by_cases h2 : tierHit (lower (title ++ ' ' :: abstract)) cfg.medium_priority <;>
      by_cases h3 : tierHit (lower (title ++ ' ' :: abstract)) cfg.low_priority <;>
        simp [h1, h2, h3]

/-- Membership in the matched-keyword list: exactly the keywords of the
three tiers whose lowercase form occurs in the case-folded text. -/
theorem mem_calculate_relevance_snd (cfg : Keywords) (title abstract k : Str) :
    k ∈ (calculate_relevance cfg title abstract).2 ↔
      k ∈ cfg.high_priority ++ cfg.medium_priority ++ cfg.low_priority ∧
        containsSub (lower (title ++ ' ' :: abstract)) (lower k) = true := by
  unfold calculate_relevance
  simp only
  rw [scanTier_snd_mem, scanTier_snd_mem, scanTier_snd_mem]
  simp only [List.not_mem_nil, List.mem_append]
  constructor
  · rintro (((h | ⟨hm, hc⟩) | ⟨hm, hc⟩) | ⟨hm, hc⟩)
    · exact h.elim
    · exact ⟨Or.inl (Or.inl hm), hc⟩
    · exact ⟨Or.inl (Or.inr hm), hc⟩
    · exact ⟨Or.inr hm, hc⟩
  · rintro ⟨(hm | hm) | hm, hc⟩
    · exact Or.inl (Or.inl (Or.inr ⟨hm, hc⟩))
    · exact Or.inl (Or.inr ⟨hm, hc⟩)
    · exact Or.inr ⟨hm, hc⟩

/-- The score is always at least 1. -/
theorem calculate_relevance_ge_one (cfg : Keywords) (title abstract : Str) :
    1 ≤ (calculate_relevance cfg title abstract).1 := by
  rw [calculate_relevance_fst]
  by_cases h1 : tierHit (lower (title ++ ' ' :: abstract)) cfg.high_priority <;>
    by_cases h2 : tierHit (lower (title ++ ' ' :: abstract)) cfg.medium_priority <;>
      simp [h1, h2]

/-- The score is always at most 5. -/
theorem calculate_relevance_le_five (cfg : Keywords) (title abstract : Str) :
    (calculate_relevance cfg title abstract).1 ≤ 5 := by
  rw [calculate_relevance_fst]
  by_cases h1 : tierHit (lower (title ++ ' ' :: abstract)) cfg.high_priority <;>
    by_cases h2 : tierHit (lower (title ++ ' ' :: abstract)) cfg.medium_priority <;>
      simp [h1, h2]

/-- C5: relevance scoring is a total function whose score lies in [1, 5]
for every pair of strings and every keyword configuration (including one
with all three tiers empty), and the score is exactly 1 when no keyword of
any tier matches the case-folded concatenation of title and abstract. -/
theorem C5_score_total_range (cfg : Keywords) (title abstract : Str) :
    1 ≤ (calculate_relevance cfg title abstract).1 ∧
    (calculate_relevance cfg title abstract).1 ≤ 5 ∧
    ((∀ k ∈ cfg.high_priority ++ cfg.medium_priority ++ cfg.low_priority,
        containsSub (lower (title ++ ' ' :: abstract)) (lower k) = false) →
      (calculate_relevance cfg title abstract).1 = 1) := by
  refine ⟨calculate_relevance_ge_one cfg title abstract,
          calculate_relevance_le_five cfg title abstract, ?_⟩
  intro hno
  rw [calculate_relevance_fst]
  have h1 : tierHit (lower (title ++ ' ' :: abstract)) cfg.high_priority = false := by
    rw [tierHit, List.any_eq_false]
    intro k hk
    simp [hno k (List.mem_append.mpr (Or.inl (List.mem_append.mpr (Or.inl hk))))]
  have h2 : tierHit (lower (title ++ ' ' :: abstract)) cfg.medium_priority = false := by
    rw [tierHit, List.any_eq_false]
    intro k hk
    simp [hno k (List.mem_append.mpr (Or.inl (List.mem_append.mpr (Or.inr hk))))]
  simp [h1, h2]

/-- Witness for C5 at a concrete nothing-matches input: the default
keyword configuration against the title "zz" scores exactly 1. -/
theorem C5_score_total_range_witness :
    (calculate_relevance default_config.keywords "zz".toList []).1 = 1 :=
  (C5_score_total_range default_config.keywords "zz".toList []).2.2 (by decide)

/-- C6 counterexample: with tiers high = [], medium = [], low = ["x"] and
title "x", the low-tier keyword "x" matches the text, yet the returned
score is 1, not the 2 the claim requires for a low-tier match (the source
raises the score only to `max(score, 1)` in the low-priority loop). -/
theorem C6_counterexample :
    containsSub (lower (['x'] ++ ' ' :: []))
        (lower ['x']) = true ∧
    (calculate_relevance
        { high_priority := [], medium_priority := [],
          low_priority := [['x']] } ['x'] []).1 = 1 ∧
    (calculate_relevance
        { high_priority := [], medium_priority := [],
          low_priority := [['x']] } ['x'] []).1 ≠ 2 := by
  decide

/-- C6 (amended): the score is 5 if some high-tier keyword matches the
case-folded concatenation of title and abstract; otherwise 3 if some
medium-tier keyword matches; otherwise 1 — whether or not a low-tier
keyword matches (the low tier affects only the matched-keyword list). -/
theorem C6_tier_score_amended (cfg : Keywords) (title abstract : Str) :
    (calculate_relevance cfg title abstract).1 =
      if ∃ k ∈ cfg.high_priority,
          containsSub (lower (title ++ ' ' :: abstract)) (lower k) = true then 5
      else if ∃ k ∈ cfg.medium_priority,
          containsSub (lower (title ++ ' ' :: abstract)) (lower k) = true then 3
      else 1 := by
  rw [calculate_relevance_fst]
  simp only [tierHit, List.any_eq_true]

/-- C7: the matched-keyword result contains every keyword, from every tier,
whose lowercase form occurs in the case-folded concatenation of title and
abstract (all three tiers are always evaluated); and on the spec's
scenario — tiers {high: ["black hole"], medium: ["cosmology"], low: []},
title "Binary black hole merger", empty abstract — the result is score 5
with matched exactly ["black hole"]. -/
theorem C7_matched_complete :
    (∀ (cfg : Keywords) (title abstract k : Str),
        k ∈ cfg.high_priority ++ cfg.medium_priority ++ cfg.low_priority →
        containsSub (lower (title ++ ' ' :: abstract)) (lower k) = true →
        k ∈ (calculate_relevance cfg title abstract).2) ∧
    calculate_relevance
        { high_priority := ["black hole".toList],
          medium_priority := ["cosmology".toList], low_priority := [] }
        "Binary black hole merger".toList [] = (5, ["black hole".toList]) := by
  constructor
  · intro cfg title abstract k hk hc
    exact (mem_calculate_relevance_snd cfg title abstract k).mpr ⟨hk, hc⟩
  · decide

/-- Witness for C7 at a concrete input: the medium-tier keyword
"cosmology" is reported as matched for the title "Cosmology today". -/
theorem C7_matched_complete_witness :
    "cosmology".toList ∈
      (calculate_relevance
        { high_priority := ["black hole".toList],
          medium_priority := ["cosmology".toList], low_priority := [] }
        "Cosmology today".toList []).2 :=
  C7_matched_complete.1 _ _ _ _ (by decide) (by decide)

/-- The reconcile loop keeps exactly the candidates whose title is not in
the existing set, in order. -/
theorem syncLoop_eq_filter (existing : List Str) (l : List Article) :
    syncLoop existing l =
      l.filter (fun a => decide (a.title ∉ existing)) := by
  induction l with
  | nil => rfl
  | cons a rest ih =>
    by_cases h : a.title ∈ existing
    · simp [syncLoop, h, ih]
    · simp [syncLoop, h, ih]

/-- C4: the reconcile loop of `main` considers exactly the first
`min(maxToAdd, length)` candidates in rank order and attempts an insert
exactly for those of them whose title is not in the existing set; in the
spec's scenario — two candidates sharing title "X", empty existing set,
`maxToAdd = 1` — exactly one insert is attempted, for the higher-ranked
candidate. -/
theorem C4_considered_budget :
    (∀ (existing : List Str) (articles : List Article) (maxToAdd : Nat),
        syncLoop existing (articles.take maxToAdd) =
          (articles.take (min maxToAdd articles.length)).filter
            (fun a => decide (a.title ∉ existing))) ∧
    syncLoop []
        (([{ title := "X".toList, link := "u1".toList, published := 10,
             abstractText := [], category := [], relevance := 5,
             keywordsMatched := [] },
           { title := "X".toList, link := "u2".toList, published := 5,
             abstractText := [], category := [], relevance := 4,
             keywordsMatched := [] }] : List Article).take 1) =
      [{ title := "X".toList, link := "u1".toList, published := 10,
         abstractText := [], category := [], relevance := 5,
         keywordsMatched := [] }] := by
  constructor
  · intro existing articles maxToAdd
    rw [syncLoop_eq_filter]
    congr 1
    conv_lhs => rw [← List.take_length (l := articles)]
    rw [List.take_take]
  · decide

/-- C8: when the store's cursor chain yields pages with `has_more = true`
on all but the last page and `false` on the last, the existing-set load
terminates with the union of the titles of all records on all pages. -/
theorem C8_pagination_complete (ps : List NPage) (plast : NPage)
    (hmid : ∀ p ∈ ps, p.has_more = true) (hlast : plast.has_more = false) :
    ∀ t, t ∈ fetch_existing_titles ((ps ++ [plast]).map Except.ok) ↔
      ∃ p ∈ ps ++ [plast], t ∈ pageTitles p := by
  induction ps with
  | nil =>
    intro t
    simp [fetch_existing_titles, hlast]
  | cons p rest ih =>
    intro t
    have hp : p.has_more = true := hmid p (List.mem_cons_self _ _)
    have ih' := ih (fun q hq => hmid q (List.mem_cons_of_mem _ hq))
    simp only [List.cons_append, List.map_cons, fetch_existing_titles, hp,
      if_pos, List.append_eq]
    rw [List.mem_append, ih' t]
    constructor
    · rintro (h | ⟨q, hq, hqt⟩)
      · exact ⟨p, List.mem_cons_self _ _, h⟩
      · exact ⟨q, List.mem_cons_of_mem _ hq, hqt⟩
    · rintro ⟨q, hq, hqt⟩
      rcases List.mem_cons.mp hq with rfl | hq
      · exact Or.inl hqt
      · exact Or.inr ⟨q, hq, hqt⟩

/-- Witness for C8 on a concrete two-page store: the title on the second
page is reported by the load. -/
theorem C8_pagination_complete_witness :
    "b".toList ∈ fetch_existing_titles
      (([({ results := [{ id := 1, titleProp := ["a".toList], date := 0,
                          archived := false }], has_more := true } : NPage)]
        ++ [({ results := [{ id := 2, titleProp := ["b".toList], date := 1,
                             archived := false }], has_more := false } : NPage)]).map
        Except.ok) :=
  (C8_pagination_complete _ _ (by decide) (by decide) _).mpr
    ⟨{ results := [{ id := 2, titleProp := ["b".toList], date := 1,
                     archived := false }], has_more := false },
     by decide, by decide⟩

/-- C3 counterexample: on a store whose very first page query raises, the
loader does not propagate the error — it returns the (empty) set of titles
collected so far — and the run proceeds to reconcile against it, attempting
an insert, instead of aborting. -/
theorem C3_counterexample :
    fetch_existing_titles [Except.error ()] = [] ∧
    mainAttempts [Except.error ()]
        [{ title := "X".toList, link := "u".toList, published := 10,
           abstractText := [], category := [], relevance := 5,
           keywordsMatched := [] }] 1 =
      [{ title := "X".toList, link := "u".toList, published := 10,
         abstractText := [], category := [], relevance := 5,
         keywordsMatched := [] }] := by
  decide

/-- C3 (amended): a store error during the paginated title load is caught,
not propagated: the loader returns exactly the titles collected from the
pages read before the failure, and the run proceeds to reconcile with this
possibly-incomplete existing set. -/
theorem C3_load_error_amended (okPages : List NPage)
    (rest : List (Except Unit NPage))
    (hm : ∀ p ∈ okPages, p.has_more = true) :
    fetch_existing_titles
        (okPages.map Except.ok ++ Except.error () :: rest) =
      (okPages.map pageTitles).flatten ∧
    ∀ (articles : List Article) (maxA : Nat),
      mainAttempts (okPages.map Except.ok ++ Except.error () :: rest)
          articles maxA =
        syncLoop ((okPages.map pageTitles).flatten) (articles.take maxA) := by
  have hmain : fetch_existing_titles
      (okPages.map Except.ok ++ Except.error () :: rest) =
      (okPages.map pageTitles).flatten := by
    induction okPages with
    | nil => simp [fetch_existing_titles]
    | cons p ps ih =>
      have hp : p.has_more = true := hm p (List.mem_cons_self _ _)
      have ih' := ih (fun q hq => hm q (List.mem_cons_of_mem _ hq))
      simp only [List.map_cons, List.cons_append, fetch_existing_titles, hp,
        if_pos, List.append_eq, ih', List.flatten_cons]
  exact ⟨hmain, fun articles maxA => by rw [mainAttempts, hmain]⟩

/-- Witness for C3's amended statement: a store that fails on its second
page query yields exactly the first page's titles, and the run's reconcile
loop then runs on that partial set. -/
theorem C3_load_error_amended_witness :
    fetch_existing_titles
        ([({ results := [{ id := 1, titleProp := ["a".toList], date := 0,
                           archived := false }], has_more := true } : NPage)].map
          Except.ok ++ Except.error () :: []) = ["a".toList] :=
  (C3_load_error_amended _ _ (by decide)).1

theorem keyLeB_total (a b : Article) :
    keyLeB a b = true ∨ keyLeB b a = true := by
  simp only [keyLeB, decide_eq_true_eq]
  omega

theorem keyLeB_trans (a b c : Article) (hab : keyLeB a b = true)
    (hbc : keyLeB b c = true) : keyLeB a c = true := by
  simp only [keyLeB, decide_eq_true_eq] at *
  omega

theorem insertDesc_perm (x : Article) (l : List Article) :
    List.Perm (insertDesc x l) (x :: l) := by
  induction l with
  | nil => rfl
  | cons y ys ih =>
    by_cases h : keyLeB y x = true
    · simp [insertDesc, h]
    · simp only [insertDesc, h, if_neg, Bool.not_eq_true]
      exact (List.Perm.cons y ih).trans (List.Perm.swap x y ys)

theorem sortDesc_perm (l : List Article) : List.Perm (sortDesc l) l := by
  induction l with
  | nil => rfl
  | cons x xs ih =>
    exact (insertDesc_perm x (sortDesc xs)).trans (List.Perm.cons x ih)

theorem pairwise_insertDesc (x : Article) (l : List Article)
    (h : l.Pairwise (fun a b => keyLeB b a = true)) :
    (insertDesc x l).Pairwise (fun a b => keyLeB b a = true) := by
  induction l with
  | nil => simp [insertDesc]
  | cons y ys ih =>
    rcases List.pairwise_cons.mp h with ⟨hy, hys⟩
    by_cases hxy : keyLeB y x = true
    · simp only [insertDesc, hxy, if_pos]
      refine List.pairwise_cons.mpr ⟨?_, h⟩
      intro z hz
      rcases List.mem_cons.mp hz with rfl | hzz
      · exact hxy
      · exact keyLeB_trans z y x (hy z hzz) hxy
    · simp only [insertDesc, hxy, if_neg, Bool.not_eq_true]
      refine List.pairwise_cons.mpr ⟨?_, ih hys⟩
      intro z hz
      have hmem : z ∈ x :: ys := (insertDesc_perm x ys).mem_iff.mp hz
      rcases List.mem_cons.mp hmem with rfl | hzz
      · rcases keyLeB_total y z with hh | hh
        · exact absurd hh hxy
        · exact hh
      · exact hy z hzz

theorem sortDesc_pairwise (l : List Article) :
    (sortDesc l).Pairwise (fun a b => keyLeB b a = true) := by
  induction l with
  | nil => exact List.Pairwise.nil
  | cons x xs ih => exact pairwise_insertDesc x (sortDesc xs) ih

/-- C9: the fetcher's result is sorted by relevance score descending, ties
broken by `publishedAt` descending, whatever the categories and whatever
entries each of them returned. -/
theorem C9_fetch_sorted (cfg : Config) (cutoff : Int)
    (feeds : List (Str × List RawEntry)) :
    (fetch_arxiv_articles cfg cutoff feeds).Pairwise
      (fun a b => b.relevance < a.relevance ∨
        (b.relevance = a.relevance ∧ b.published ≤ a.published)) := by
  unfold fetch_arxiv_articles
  exact (sortDesc_pairwise _).imp
    (fun hab => by simpa [keyLeB, decide_eq_true_eq] using hab)

theorem mem_sortDesc (a : Article) (l : List Article) :
    a ∈ sortDesc l ↔ a ∈ l :=
  (sortDesc_perm l).mem_iff

/-- Helper fact: `processEntry` never emits an article below the configured relevance
threshold, and the article it emits carries the computed score. -/
theorem processEntry_relevance (cfg : Config) (cutoff : Int) (cat : Str)
    (e : RawEntry) (art : Article)
    (h : processEntry cfg cutoff cat e = some art) :
    cfg.min_relevance ≤ art.relevance := by
  rcases e with ⟨te, le0, pe, se⟩
  cases te with
  | none => simp [processEntry] at h
  | some t =>
  cases le0 with
  | none => simp [processEntry] at h
  | some l =>
  cases pe with
  | none => simp [processEntry] at h
  | some p =>
  cases se with
  | none => simp [processEntry] at h
  | some s =>
  simp only [processEntry] at h
  by_cases hd : p < cutoff
  · rw [if_pos hd] at h
    exact absurd h (by simp)
  · rw [if_neg hd] at h
    by_cases hr : (calculate_relevance cfg.keywords (normWS t) (normWS s)).1 <
        cfg.min_relevance
    · rw [if_pos hr] at h
      exact absurd h (by simp)
    · rw [if_neg hr] at h
      rcases Option.some_inj.mp h with rfl
      exact le_of_not_lt hr

/-- C10: the fetcher applies a minimum-relevance filter: every article it
returns has relevance at least `min_relevance`; every article built from a
parsed entry of a queried category does make it into the result; and at the
default threshold 1 (the value both the fallback configuration and
`config.get('min_relevance', 1)` supply) the filter passes every parsed
in-window entry, since scores are at least 1. -/
theorem C10_min_relevance_filter :
    default_config.min_relevance = 1 ∧
    (∀ (cfg : Config) (cutoff : Int) (feeds : List (Str × List RawEntry))
        (art : Article),
        art ∈ fetch_arxiv_articles cfg cutoff feeds →
        cfg.min_relevance ≤ art.relevance) ∧
    (∀ (cfg : Config) (cutoff : Int) (feeds : List (Str × List RawEntry))
        (cat : Str) (entries : List RawEntry) (e : RawEntry) (art : Article),
        (cat, entries) ∈ feeds → e ∈ entries →
        processEntry cfg cutoff cat e = some art →
        art ∈ fetch_arxiv_articles cfg cutoff feeds) ∧
    (∀ (cfg : Config) (cutoff : Int) (cat : Str) (t l : Str) (p : Int)
        (s : Str),
        cfg.min_relevance = 1 → cutoff ≤ p →
        (processEntry cfg cutoff cat
          { title_elem := some t, link_elem := some l,
            published_elem := some p, summary_elem := some s }).isSome
          = true) := by
  refine ⟨rfl, ?_, ?_, ?_⟩
  · intro cfg cutoff feeds art hart
    rw [fetch_arxiv_articles, mem_sortDesc, List.mem_flatten] at hart
    rcases hart with ⟨l, hl, hart⟩
    rcases List.mem_map.mp hl with ⟨f, _, rfl⟩
    rcases List.mem_filterMap.mp hart with ⟨e, _, he⟩
    exact processEntry_relevance cfg cutoff f.1 e art he
  · intro cfg cutoff feeds cat entries e art hfeed hent hproc
    rw [fetch_arxiv_articles, mem_sortDesc, List.mem_flatten]
    refine ⟨(cat, entries).2.filterMap (processEntry cfg cutoff (cat, entries).1),
      List.mem_map.mpr ⟨(cat, entries), hfeed, rfl⟩, ?_⟩
    exact List.mem_filterMap.mpr ⟨e, hent, hproc⟩
  · intro cfg cutoff cat t l p s hmin hp
    simp only [processEntry]
    have hdate : ¬ p < cutoff := not_lt.mpr hp
    rw [if_neg hdate, hmin]
    have h1 := calculate_relevance_ge_one cfg.keywords (normWS t) (normWS s)
    rw [if_neg (not_lt.mpr h1)]
    rfl

/-- Witness for C10 on a concrete feed: with the default configuration
(threshold 1) an in-window entry whose text matches nothing still becomes
an article, and that article appears in the fetch result. -/
theorem C10_min_relevance_filter_witness :
    (processEntry default_config 0 "gr-qc".toList
      { title_elem := some "T".toList, link_elem := some "u".toList,
        published_elem := some 5, summary_elem := some "s".toList }).isSome
      = true :=
  C10_min_relevance_filter.2.2.2 default_config 0 "gr-qc".toList "T".toList
    "u".toList 5 "s".toList rfl (by decide)

theorem lexLeB_total (a b : NRec × Nat) :
    lexLeB a b = true ∨ lexLeB b a = true := by
  simp only [lexLeB, decide_eq_true_eq]
  omega

theorem lexLeB_trans (a b c : NRec × Nat) (hab : lexLeB a b = true)
    (hbc : lexLeB b c = true) : lexLeB a c = true := by
  simp only [lexLeB, decide_eq_true_eq] at *
  omega

theorem insLex_perm (x : NRec × Nat) (l : List (NRec × Nat)) :
    List.Perm (insLex x l) (x :: l) := by
  induction l with
  | nil => rfl
  | cons y ys ih =>
    by_cases h : lexLeB x y = true
    · simp [insLex, h]
    · simp only [insLex, h, if_neg, Bool.not_eq_true]
      exact (List.Perm.cons y ih).trans (List.Perm.swap x y ys)

theorem sortLex_perm (l : List (NRec × Nat)) : List.Perm (sortLex l) l := by
  induction l with
  | nil => rfl
  | cons x xs ih =>
    exact (insLex_perm x (sortLex xs)).trans (List.Perm.cons x ih)

theorem pairwise_insLex (x : NRec × Nat) (l : List (NRec × Nat))
    (h : l.Pairwise (fun a b => lexLeB a b = true)) :
    (insLex x l).Pairwise (fun a b => lexLeB a b = true) := by
  induction l with
  | nil => simp [insLex]
  | cons y ys ih =>
    rcases List.pairwise_cons.mp h with ⟨hy, hys⟩
    by_cases hxy : lexLeB x y = true
    · simp only [insLex, hxy, if_pos]
      refine List.pairwise_cons.mpr ⟨?_, h⟩
      intro z hz
      rcases List.mem_cons.mp hz with rfl | hzz
      · exact hxy
      · exact lexLeB_trans x y z hxy (hy z hzz)
    · simp only [insLex, hxy, if_neg, Bool.not_eq_true]
      refine List.pairwise_cons.mpr ⟨?_, ih hys⟩
      intro z hz
      have hmem : z ∈ x :: ys := (insLex_perm x ys).mem_iff.mp hz
      rcases List.mem_cons.mp hmem with rfl | hzz
      · rcases lexLeB_total z y with hh | hh
        · exact absurd hh hxy
        · exact hh
      · exact hy z hzz

theorem sortLex_pairwise (l : List (NRec × Nat)) :
    (sortLex l).Pairwise (fun a b => lexLeB a b = true) := by
  induction l with
  | nil => exact List.Pairwise.nil
  | cons x xs ih => exact pairwise_insLex x (sortLex xs) ih

theorem withIdx_length (l : List NRec) (n : Nat) :
    (withIdx l n).length = l.length := by
  induction l generalizing n with
  | nil => rfl
  | cons r rs ih => simp [withIdx, ih]

theorem withIdx_map_fst (l : List NRec) (n : Nat) :
    (withIdx l n).map Prod.fst = l := by
  induction l generalizing n with
  | nil => rfl
  | cons r rs ih => simp [withIdx, ih]

theorem withIdx_mem_fst {p : NRec × Nat} {l : List NRec} {n : Nat}
    (h : p ∈ withIdx l n) : p.1 ∈ l := by
  induction l generalizing n with
  | nil => exact absurd h (List.not_mem_nil _)
  | cons r rs ih =>
    rcases List.mem_cons.mp h with rfl | h
    · exact List.mem_cons_self _ _
    · exact List.mem_cons_of_mem _ (ih h)

theorem withIdx_le_idx {a : NRec} {i : Nat} {l : List NRec} {n : Nat}
    (h : (a, i) ∈ withIdx l n) : n ≤ i := by
  induction l generalizing n with
  | nil => exact absurd h (List.not_mem_nil _)
  | cons r rs ih =>
    rcases List.mem_cons.mp h with heq | h
    · injection heq with h1 h2
      omega
    · have := ih h
      omega

/-- At one position there is exactly one annotated record. -/
theorem withIdx_idx_fun {a b : NRec} {i : Nat} {l : List NRec} {n : Nat}
    (ha : (a, i) ∈ withIdx l n) (hb : (b, i) ∈ withIdx l n) : a = b := by
  induction l generalizing n with
  | nil => exact absurd ha (List.not_mem_nil _)
  | cons r rs ih =>
    rcases List.mem_cons.mp ha with heqa | ha' <;>
      rcases List.mem_cons.mp hb with heqb | hb'
    · injection heqa with e1 e2
      injection heqb with f1 f2
      rw [e1, f1]
    · injection heqa with e1 e2
      have h3 := withIdx_le_idx hb'
      omega
    · injection heqb with f1 f2
      have h3 := withIdx_le_idx ha'
      omega
    · exact ih ha' hb'

/-- In a duplicate-free list every record is annotated with one position. -/
theorem withIdx_rec_fun {a : NRec} {i j : Nat} {l : List NRec} {n : Nat}
    (hl : l.Nodup) (hi : (a, i) ∈ withIdx l n) (hj : (a, j) ∈ withIdx l n) :
    i = j := by
  induction l generalizing n with
  | nil => exact absurd hi (List.not_mem_nil _)
  | cons r rs ih =>
    rcases List.pairwise_cons.mp hl with ⟨hr, hrs⟩
    rcases List.mem_cons.mp hi with heqi | hi' <;>
      rcases List.mem_cons.mp hj with heqj | hj'
    · injection heqi with e1 e2
      injection heqj with f1 f2
      rw [e2, f2]
    · injection heqi with e1 e2
      exact absurd e1.symm (hr a (withIdx_mem_fst hj'))
    · injection heqj with f1 f2
      exact absurd f1.symm (hr a (withIdx_mem_fst hi'))
    · exact ih hrs hi' hj'

/-- Folding the per-page archive calls equals one pass marking every record
whose id is among the archived ids. -/
theorem archFold_eq_map (ids : List Nat) (store : List NRec) :
    ids.foldl (fun s i => archiveOne i s) store =
      store.map
        (fun r => if r.id ∈ ids then { r with archived := true } else r) := by
  induction ids generalizing store with
  | nil => simp
  | cons i ids ih =>
    rw [List.foldl_cons, ih, archiveOne, List.map_map]
    refine List.map_congr_left (fun r _ => ?_)
    by_cases h1 : r.id = i
    · have hbeq : (r.id == i) = true := by simp [h1]
      simp only [Function.comp_apply, hbeq, if_pos, List.mem_cons, h1,
        true_or, if_true]
      by_cases h2 : r.id ∈ ids <;> simp
    · have hbeq : (r.id == i) = false := by simp [h1]
      simp only [Function.comp_apply, hbeq, Bool.false_eq_true, if_false,
        List.mem_cons]
      by_cases h2 : r.id ∈ ids
      · simp [h2]
      · simp [h1, h2]

/-- The live records after the one-pass archival are exactly the live
records whose id was not archived, in store order. -/
theorem liveRecs_map_archIf (ids : List Nat) (store : List NRec) :
    liveRecs (store.map
        (fun r => if r.id ∈ ids then { r with archived := true } else r)) =
      (liveRecs store).filter (fun r => decide (r.id ∉ ids)) := by
  induction store with
  | nil => rfl
  | cons r rs ih =>
    by_cases hm : r.id ∈ ids
    · by_cases hl : r.archived
      · simp only [List.map_cons, hm, if_pos, liveRecs, List.filter_cons]
        simp only [liveRecs] at ih
        simp [hl, ih]
      · simp only [List.map_cons, hm, if_pos, liveRecs, List.filter_cons]
        simp only [liveRecs] at ih
        simp [hl, hm, ih]
    · by_cases hl : r.archived
      · simp only [List.map_cons, hm, if_neg, liveRecs, List.filter_cons]
        simp only [liveRecs] at ih
        simp [hl, ih]
      · simp only [List.map_cons, hm, if_neg, liveRecs, List.filter_cons]
        simp only [liveRecs] at ih
        simp [hl, hm, ih]

/-- The live records surviving `trim_database`'s archive loop. -/
theorem liveRecs_trim_fold (victims : List NRec) (store : List NRec) :
    liveRecs (victims.foldl (fun s p => archiveOne p.id s) store) =
      (liveRecs store).filter
        (fun r => decide (r.id ∉ victims.map NRec.id)) := by
  have h : victims.foldl (fun s p => archiveOne p.id s) store =
      (victims.map NRec.id).foldl (fun s i => archiveOne i s) store := by
    rw [List.foldl_map]
  rw [h, archFold_eq_map, liveRecs_map_archIf]

/-- C2 (amended): provided the live records fit in the single page the
trimmer fetches (at most 100) and the store's ids are distinct, `trim`
archives exactly the `count - maxArticles` live records with the smallest
`publishedAt` — ties broken by original store order — oldest-first, and
afterwards at most `maxArticles` live records remain. -/
theorem C2_trim_amended (m : Nat) (store : List NRec)
    (hids : (store.map NRec.id).Nodup)
    (hlen : (liveRecs store).length ≤ 100) :
    (trim_database m store).1.length = (liveRecs store).length - m ∧
    (liveRecs (trim_database m store).2).length ≤ m ∧
    List.Subperm (trim_database m store).1 (liveRecs store) ∧
    (trim_database m store).1.Pairwise (fun a b => a.date ≤ b.date) ∧
    (∀ a ∈ (trim_database m store).1,
      ∀ b ∈ liveRecs (trim_database m store).2,
      ∀ ia ib, (a, ia) ∈ withIdx (liveRecs store) 0 →
        (b, ib) ∈ withIdx (liveRecs store) 0 →
        a.date < b.date ∨ (a.date = b.date ∧ ia < ib)) := by
  classical
  have hperm : List.Perm (sortLex (withIdx (liveRecs store) 0))
      (withIdx (liveRecs store) 0) := sortLex_perm _
  have hslen : (sortLex (withIdx (liveRecs store) 0)).length =
      (liveRecs store).length := by
    rw [hperm.length_eq, withIdx_length]
  have hpages : queryByDateAsc store =
      (sortLex (withIdx (liveRecs store) 0)).map Prod.fst := by
    rw [queryByDateAsc]
    apply List.take_of_length_le
    rw [List.length_map, hslen]
    exact hlen
  have hpl : (queryByDateAsc store).length = (liveRecs store).length := by
    rw [hpages, List.length_map, hslen]
  have htrim1 : (trim_database m store).1 =
      (queryByDateAsc store).take ((queryByDateAsc store).length - m) := rfl
  have htrim2 : (trim_database m store).2 =
      ((queryByDateAsc store).take
        ((queryByDateAsc store).length - m)).foldl
        (fun s p => archiveOne p.id s) store := rfl
  have hAk : (trim_database m store).1 =
      ((sortLex (withIdx (liveRecs store) 0)).take
        ((liveRecs store).length - m)).map Prod.fst := by
    rw [htrim1, hpl, hpages, List.map_take]
  have hmfst : List.Perm
      ((sortLex (withIdx (liveRecs store) 0)).map Prod.fst)
      (liveRecs store) := by
    have h := hperm.map Prod.fst
    rw [withIdx_map_fst] at h
    exact h
  have hi : (trim_database m store).1.length =
      (liveRecs store).length - m := by
    rw [hAk, List.length_map, List.length_take, hslen]
    omega
  have hlive2 : liveRecs (trim_database m store).2 =
      (liveRecs store).filter
        (fun r =>
          decide (r.id ∉ ((trim_database m store).1).map NRec.id)) := by
    conv_lhs => rw [htrim2]
    rw [liveRecs_trim_fold, htrim1]
  have hAfilter : ((trim_database m store).1).filter
      (fun r =>
        decide (r.id ∉ ((trim_database m store).1).map NRec.id)) = [] := by
    apply List.filter_eq_nil_iff.mpr
    intro r hr
    simp only [decide_eq_true_eq, not_not]
    exact List.mem_map.mpr ⟨r, hr, rfl⟩
  have hlive_perm : List.Perm (liveRecs store)
      (((sortLex (withIdx (liveRecs store) 0)).take
          ((liveRecs store).length - m)).map Prod.fst ++
        ((sortLex (withIdx (liveRecs store) 0)).drop
          ((liveRecs store).length - m)).map Prod.fst) := by
    rw [← List.map_append, List.take_append_drop]
    exact hmfst.symm
  have hii : (liveRecs (trim_database m store).2).length ≤ m := by
    rw [hlive2]
    have hpf := hlive_perm.filter
      (fun r => decide (r.id ∉ ((trim_database m store).1).map NRec.id))
    rw [hpf.length_eq, List.filter_append, ← hAk, hAfilter,
      List.nil_append]
    have h1 := List.length_filter_le
      (fun r => decide (r.id ∉ ((trim_database m store).1).map NRec.id))
      (((sortLex (withIdx (liveRecs store) 0)).drop
        ((liveRecs store).length - m)).map Prod.fst)
    have h2 : (((sortLex (withIdx (liveRecs store) 0)).drop
        ((liveRecs store).length - m)).map Prod.fst).length =
        (liveRecs store).length - ((liveRecs store).length - m) := by
      rw [List.length_map, List.length_drop, hslen]
    omega
  have hiii : List.Subperm (trim_database m store).1 (liveRecs store) := by
    rw [hAk]
    exact (((List.take_sublist _ _).map Prod.fst).subperm).trans
      hmfst.subperm
  have hiv : (trim_database m store).1.Pairwise
      (fun a b => a.date ≤ b.date) := by
    rw [hAk, List.pairwise_map]
    refine (List.Pairwise.sublist (List.take_sublist _ _)
      (sortLex_pairwise _)).imp ?_
    intro a b hab
    simp only [lexLeB, decide_eq_true_eq] at hab
    omega
  refine ⟨hi, hii, hiii, hiv, ?_⟩
  intro a ha b hb ia ib hia hib
  rw [hAk] at ha
  rcases List.mem_map.mp ha with ⟨pa, hpa, rfl⟩
  rw [hlive2] at hb
  rcases List.mem_filter.mp hb with ⟨hbl, hbid⟩
  have hbid' : b.id ∉ ((trim_database m store).1).map NRec.id :=
    of_decide_eq_true hbid
  have hbsorted : (b, ib) ∈ sortLex (withIdx (liveRecs store) 0) :=
    hperm.mem_iff.mpr hib
  have hbsplit : (b, ib) ∈
      (sortLex (withIdx (liveRecs store) 0)).take
        ((liveRecs store).length - m) ++
      (sortLex (withIdx (liveRecs store) 0)).drop
        ((liveRecs store).length - m) := by
    rw [List.take_append_drop]
    exact hbsorted
  have hbdrop : (b, ib) ∈ (sortLex (withIdx (liveRecs store) 0)).drop
      ((liveRecs store).length - m) := by
    rcases List.mem_append.mp hbsplit with hx | hx
    · exfalso
      apply hbid'
      rw [hAk]
      exact List.mem_map.mpr ⟨b, List.mem_map.mpr ⟨(b, ib), hx, rfl⟩, rfl⟩
    · exact hx
  have hpaL : pa ∈ withIdx (liveRecs store) 0 :=
    hperm.mem_iff.mp (List.take_subset _ _ hpa)
  have hlivenodup : (liveRecs store).Nodup := (hids.of_map).filter _
  have hidx : pa.2 = ia := withIdx_rec_fun hlivenodup hpaL hia
  have hPW := sortLex_pairwise (withIdx (liveRecs store) 0)
  rw [← List.take_append_drop ((liveRecs store).length - m)
    (sortLex (withIdx (liveRecs store) 0))] at hPW
  have hrel := (List.pairwise_append.mp hPW).2.2 pa hpa (b, ib) hbdrop
  simp only [lexLeB, decide_eq_true_eq] at hrel
  have hne : pa.2 ≠ ib := by
    intro heq
    have hpaL' : (pa.1, pa.2) ∈ withIdx (liveRecs store) 0 := hpaL
    rw [heq] at hpaL'
    have hab : pa.1 = b := withIdx_idx_fun hpaL' hib
    apply hbid'
    rw [hAk]
    refine List.mem_map.mpr ⟨pa.1, List.mem_map.mpr ⟨pa, hpa, rfl⟩, ?_⟩
    rw [hab]
  omega

set_option maxRecDepth 10000 in
/-- C2 counterexample: a store of 101 live records with ascending dates,
`maxArticles = 20`.  The trimmer fetches only one page of 100, archives
`100 - 20 = 80` of them, and leaves 21 live records — more than
`maxArticles`, violating the claimed invariant for stores of more than one
page. -/
theorem C2_counterexample :
    (liveRecs (List.map
        (fun i => NRec.mk i [] (Int.ofNat i) false)
        (List.range 101))).length = 101 ∧
    20 < (liveRecs (trim_database 20 (List.map
        (fun i => NRec.mk i [] (Int.ofNat i) false)
        (List.range 101))).2).length := by
  constructor
  · decide
  · decide

/-- Witness for C2's amended statement on a concrete three-record store
with `maxArticles = 2`: exactly one record is archived, the oldest. -/
theorem C2_trim_amended_witness :
    (trim_database 2
        ([⟨0, [], 3, false⟩, ⟨1, [], 1, false⟩, ⟨2, [], 2, false⟩] :
          List NRec)).1.length =
      (liveRecs ([⟨0, [], 3, false⟩, ⟨1, [], 1, false⟩,
        ⟨2, [], 2, false⟩] : List NRec)).length - 2 ∧
    (liveRecs (trim_database 2
        ([⟨0, [], 3, false⟩, ⟨1, [], 1, false⟩, ⟨2, [], 2, false⟩] :
          List NRec)).2).length ≤ 2 ∧
    List.Subperm (trim_database 2
        ([⟨0, [], 3, false⟩, ⟨1, [], 1, false⟩, ⟨2, [], 2, false⟩] :
          List NRec)).1
      (liveRecs ([⟨0, [], 3, false⟩, ⟨1, [], 1, false⟩,
        ⟨2, [], 2, false⟩] : List NRec)) ∧
    (trim_database 2
        ([⟨0, [], 3, false⟩, ⟨1, [], 1, false⟩, ⟨2, [], 2, false⟩] :
          List NRec)).1.Pairwise (fun a b => a.date ≤ b.date) ∧
    (∀ a ∈ (trim_database 2
        ([⟨0, [], 3, false⟩, ⟨1, [], 1, false⟩, ⟨2, [], 2, false⟩] :
          List NRec)).1,
      ∀ b ∈ liveRecs (trim_database 2
        ([⟨0, [], 3, false⟩, ⟨1, [], 1, false⟩, ⟨2, [], 2, false⟩] :
          List NRec)).2,
      ∀ ia ib,
        (a, ia) ∈ withIdx (liveRecs ([⟨0, [], 3, false⟩, ⟨1, [], 1, false⟩,
          ⟨2, [], 2, false⟩] : List NRec)) 0 →
        (b, ib) ∈ withIdx (liveRecs ([⟨0, [], 3, false⟩, ⟨1, [], 1, false⟩,
          ⟨2, [], 2, false⟩] : List NRec)) 0 →
        a.date < b.date ∨ (a.date = b.date ∧ ia < ib)) :=
  C2_trim_amended 2 _ (by decide) (by decide)

theorem syncLoop_sublist (existing : List Str) (l : List Article) :
    List.Sublist (syncLoop existing l) l := by
  rw [syncLoop_eq_filter]
  exact List.filter_sublist l

theorem mem_syncLoop_title {existing : List Str} {l : List Article}
    {a : Article} (h : a ∈ syncLoop existing l) : a.title ∉ existing := by
  rw [syncLoop_eq_filter] at h
  exact of_decide_eq_true (List.mem_filter.mp h).2

theorem pickOk_sublist (ok : Nat → Bool) (i : Nat) (l : List Article) :
    List.Sublist (pickOk ok i l) l := by
  induction l generalizing i with
  | nil => exact List.Sublist.refl []
  | cons a rest ih =>
    by_cases h : ok i = true
    · simp only [pickOk, h, if_pos]
      exact List.Sublist.cons₂ a (ih (i + 1))
    · simp only [pickOk, h, if_neg, Bool.not_eq_true]
      exact List.Sublist.cons a (ih (i + 1))

theorem liveRecs_mkRecs (base : Nat) (arts : List Article) :
    liveRecs (mkRecs base arts) = mkRecs base arts := by
  induction arts generalizing base with
  | nil => rfl
  | cons a rest ih =>
    simp only [mkRecs, liveRecs, List.filter_cons, add_entry_rec]
    simp only [liveRecs] at ih
    simp [ih]

theorem titles_mkRecs (base : Nat) (arts : List Article) :
    (mkRecs base arts).filterMap (fun r => r.titleProp.head?) =
      arts.map Article.title := by
  induction arts generalizing base with
  | nil => rfl
  | cons a rest ih =>
    simp only [mkRecs, add_entry_rec, List.filterMap_cons, List.head?_cons,
      List.map_cons]
    rw [ih]

theorem liveTitles_append (s t : List NRec) :
    liveTitles (s ++ t) = liveTitles s ++ liveTitles t := by
  rw [liveTitles, liveRecs, List.filter_append, List.filterMap_append]
  rfl

/-- Trimming only archives: the live records afterwards are a sublist of
the live records before. -/
theorem liveRecs_trim_sublist (m : Nat) (store : List NRec) :
    List.Sublist (liveRecs (trim_database m store).2) (liveRecs store) := by
  have h : (trim_database m store).2 =
      ((trim_database m store).1).foldl (fun s p => archiveOne p.id s)
        store := rfl
  rw [h, liveRecs_trim_fold]
  exact List.filter_sublist _

/-- C1 counterexample: starting from an empty store (trivially without
duplicate titles), a run whose fetched candidates contain two items titled
"X", both within the insertion budget (`maxArticles = 2`) and with every
insert succeeding, ends with two live records sharing the title "X": the
loop checks each candidate only against the existing set loaded before the
loop, which is never updated. -/
theorem C1_counterexample :
    (liveTitles ([] : List NRec)).Nodup ∧
    ¬ (liveTitles (runSync 2 (fun _ => true) []
        [{ title := "X".toList, link := "u1".toList, published := 10,
           abstractText := [], category := [], relevance := 5,
           keywordsMatched := [] },
         { title := "X".toList, link := "u2".toList, published := 9,
           abstractText := [], category := [], relevance := 5,
           keywordsMatched := [] }])).Nodup := by
  constructor
  · decide
  · decide

/-- C1 (amended): the dedup invariant holds provided the considered
candidates have pairwise-distinct titles: if the initial store has no two
live records sharing a title and the first `maxArticles` fetched candidates
have pairwise-distinct titles, then after a complete run (load existing
titles, insert new articles, trim) no two live records share a title —
whatever inserts succeed or fail. -/
theorem C1_dedup_amended (maxA : Nat) (ok : Nat → Bool) (store : List NRec)
    (articles : List Article)
    (h1 : (liveTitles store).Nodup)
    (h2 : ((articles.take maxA).map Article.title).Nodup) :
    (liveTitles (runSync maxA ok store articles)).Nodup := by
  by_cases hemp : articles.isEmpty = true
  · rw [runSync, if_pos hemp]
    exact h1
  · rw [runSync, if_neg hemp]
    show (liveTitles ((trim_database maxA (store ++
      mkRecs (freshBase store)
        (pickOk ok 0
          (syncLoop (liveTitles store) (articles.take maxA))))).2)).Nodup
    have hsubt : List.Sublist
        (liveTitles ((trim_database maxA (store ++
          mkRecs (freshBase store)
            (pickOk ok 0 (syncLoop (liveTitles store)
              (articles.take maxA))))).2))
        (liveTitles (store ++
          mkRecs (freshBase store)
            (pickOk ok 0 (syncLoop (liveTitles store)
              (articles.take maxA))))) :=
      (liveRecs_trim_sublist _ _).filterMap _
    refine hsubt.nodup ?_
    rw [liveTitles_append]
    have hmk : liveTitles (mkRecs (freshBase store)
        (pickOk ok 0 (syncLoop (liveTitles store) (articles.take maxA)))) =
        (pickOk ok 0 (syncLoop (liveTitles store)
          (articles.take maxA))).map Article.title := by
      rw [liveTitles, liveRecs_mkRecs, titles_mkRecs]
    rw [hmk]
    refine List.nodup_append.mpr ⟨h1, ?_, ?_⟩
    · refine List.Nodup.sublist ?_ h2
      exact ((pickOk_sublist ok 0 _).trans (syncLoop_sublist _ _)).map _
    · intro t ht htn
      rcases List.mem_map.mp htn with ⟨a, hsucc, rfl⟩
      have hatt : a ∈ syncLoop (liveTitles store) (articles.take maxA) :=
        (pickOk_sublist ok 0 _).subset hsucc
      exact mem_syncLoop_title hatt ht

/-- Witness for C1's amended statement: one live record titled "A", one
candidate titled "B", budget 1 — the run ends without duplicate titles. -/
theorem C1_dedup_amended_witness :
    (liveTitles (runSync 1 (fun _ => true)
        ([⟨0, ["A".toList], 0, false⟩] : List NRec)
        [{ title := "B".toList, link := "u".toList, published := 10,
           abstractText := [], category := [], relevance := 5,
           keywordsMatched := [] }])).Nodup :=
  C1_dedup_amended 1 (fun _ => true) _ _ (by decide) (by decide)

end NotionNews
